import Mathlib

/-!
# Verification of the computational-social-choice core

Shallow embedding, over exact rationals, of the allocation mechanisms in
`src/mechanisms.py` (`probabilistic_serial`, `random_priority`,
`popular_assignment`) and of the property checkers in
`src/verify_properties.py` (`check_ex_post_efficiency`,
`check_ordinal_efficiency`, `check_no_envy`, `check_strategy_proofness`).

Agent and object names are opaque string identifiers in the source (the
data model calls them "opaque identifiers"); the embedding uses `ℕ` for
them, with decidable equality standing in for string comparison.  Python
dictionaries keyed by names are embedded as functions out of `ℕ` when they
are only read pointwise, and as ordered association lists when the code
relies on mutation, deletion or iteration order (the `remaining` supply
dict of the eating loop).  Floating-point numbers are embedded as `ℚ`; the
literal `1e-6` of the source becomes the rational `eps = 1/1000000`.

Rational arithmetic is written through the executable wrappers `qadd`,
`qsub`, `qdivNat`, `qmulNat`, `qmin`, `qsum` (each proved equal to the
standard `ℚ` operation in the theorem section), so that every concrete run
of a mechanism can be evaluated by `decide`.

The two sources of behaviour external to the repository are modeled as
explicit parameters: the random agent orderings drawn by `random_priority`
(`np.random.permutation`) are passed in as a list, and the LP solver
invoked by `popular_assignment` (CBC via pulp) and by
`check_ex_post_efficiency` (scipy `linprog`) is modeled as an exact
feasibility oracle.
-/

namespace CSC

/-- Agent identifier (a name string in the source). -/
abbrev Agent := ℕ

/-- Object identifier (a name string in the source). -/
abbrev Obj := ℕ

/-- Preference profile: each agent maps to its ranked object list
(the Python `preferences` dict, read pointwise). -/
abbrev Prefs := Agent → List Obj

/-- Fractional assignment matrix: `asg agent object` is the fraction
(the nested Python dict `assignment[agent][object]`). -/
abbrev Asg := Agent → Obj → ℚ

/-! ## Executable rational arithmetic -/

/-- Executable addition on `ℚ` (kernel-reducible form of `a + b`). -/
def qadd (a b : ℚ) : ℚ := mkRat (a.num * b.den + b.num * a.den) (a.den * b.den)

/-- Executable subtraction on `ℚ` (kernel-reducible form of `a - b`). -/
def qsub (a b : ℚ) : ℚ := mkRat (a.num * b.den - b.num * a.den) (a.den * b.den)

/-- Executable division of a rational by a natural number. -/
def qdivNat (a : ℚ) (n : ℕ) : ℚ := mkRat a.num (a.den * n)

/-- Executable multiplication of a rational by a natural number. -/
def qmulNat (a : ℚ) (n : ℕ) : ℚ := mkRat (a.num * n) a.den

/-- Executable minimum on `ℚ`. -/
def qmin (a b : ℚ) : ℚ := if a ≤ b then a else b

/-- Executable sum of a list of rationals. -/
def qsum (l : List ℚ) : ℚ := l.foldr qadd 0

/-- The supply / crediting epsilon `1e-6` of the source. -/
def eps : ℚ := mkRat 1 1000000

/-! ## Association lists (Python dicts with mutation) -/

/-- Lookup in an ordered association list (Python `d[k]`, with `none` for a
missing key as in `k in d` guards). -/
def alook {β : Type} : List (ℕ × β) → ℕ → Option β
  | [], _ => none
  | p :: r, s => if p.1 = s then some p.2 else alook r s

/-- Overwrite the value at a key, preserving entry order (Python `d[k] = v`
on an existing key). -/
def aset : List (Obj × ℚ) → Obj → ℚ → List (Obj × ℚ)
  | [], _, _ => []
  | p :: r, s, v => if p.1 = s then (s, v) :: r else p :: aset r s v

/-- Delete a key (Python `del d[k]`). -/
def adel : List (Obj × ℚ) → Obj → List (Obj × ℚ)
  | [], _ => []
  | p :: r, s => if p.1 = s then r else p :: adel r s

/-- Pointwise update of an assignment matrix cell
(Python `assignment[agent][obj] = v`). -/
def updAsg (f : Asg) (a : Agent) (o : Obj) (v : ℚ) : Asg :=
  fun x y => if x = a ∧ y = o then v else f x y

/-- Pointwise update of one agent's ranking
(Python `preferences[agent] = ranking`). -/
def updatePref (p : Prefs) (a : Agent) (l : List Obj) : Prefs :=
  fun x => if x = a then l else p x

/-! ## Probabilistic Serial (`mechanisms.py`, lines 6-54) -/

/-- The current target of one agent: the first object of its ranking that is
still in `remaining` with more than `eps` supply (lines 29-32). -/
def eatTarget (rem : List (Obj × ℚ)) (ranking : List Obj) : Option Obj :=
  ranking.find? (fun o =>
    match alook rem o with
    | some r => decide (eps < r)
    | none => false)

/-- The `eat_rates` mapping of one loop iteration (lines 27-32), as the list
of (agent, target) pairs in agent-list order (Python dict insertion order;
agent names are distinct dictionary keys). -/
def eatRates (agents : List Agent) (prefs : Prefs) (rem : List (Obj × ℚ)) :
    List (Agent × Obj) :=
  agents.filterMap (fun a => (eatTarget rem (prefs a)).map (fun o => (a, o)))

/-- The step length `delta` (lines 37-43): the minimum of the remaining
clock time and, over each consumed object, its remaining supply divided by
the number of agents eating it. -/
def deltaOf (rem : List (Obj × ℚ)) (er : List (Agent × Obj)) (time : ℚ) : ℚ :=
  er.foldl
    (fun d p =>
      qmin d (qdivNat ((alook rem p.2).getD 0) (er.filter (fun q => q.2 = p.2)).length))
    (qsub 1 time)

/-- One pass of the crediting loop body (lines 45-50) for a single
(agent, object) pair: skip if the object was already deleted, otherwise
credit the agent, deduct the supply, and delete the object if its remaining
supply drops below `eps`. -/
def creditOne (delta : ℚ) (st : Asg × List (Obj × ℚ)) (p : Agent × Obj) :
    Asg × List (Obj × ℚ) :=
  match alook st.2 p.2 with
  | none => st
  | some r =>
      let a2 := updAsg st.1 p.1 p.2 (qadd (st.1 p.1 p.2) delta)
      let r2 := qsub r delta
      if r2 < eps then (a2, adel st.2 p.2) else (a2, aset st.2 p.2 r2)

/-- The whole crediting loop (lines 45-50), folding over `eat_rates` in
agent-list order. -/
def creditAll (delta : ℚ) (er : List (Agent × Obj)) (st : Asg × List (Obj × ℚ)) :
    Asg × List (Obj × ℚ) :=
  er.foldl (creditOne delta) st

/-- State of the eating loop: virtual clock, assignment so far, remaining
supply (ordered as the Python dict). -/
structure PSState where
  time : ℚ
  asg : Asg
  rem : List (Obj × ℚ)

/-- The `while time < 1.0 and remaining` loop (lines 26-52), with explicit
fuel.  `none` means the fuel ran out while the loop would still continue;
the source has no such bound, and `psLoop_total` below shows the loop in
fact stops within `rem.length + 1` iterations. -/
def psLoop (agents : List Agent) (prefs : Prefs) : ℕ → PSState → Option PSState
  | 0, s => if s.time < 1 ∧ s.rem ≠ [] then none else some s
  | fuel + 1, s =>
      if s.time < 1 ∧ s.rem ≠ [] then
        if eatRates agents prefs s.rem = [] then some s
        else
          psLoop agents prefs fuel
            ⟨qadd s.time (deltaOf s.rem (eatRates agents prefs s.rem) s.time),
             (creditAll (deltaOf s.rem (eatRates agents prefs s.rem) s.time)
                (eatRates agents prefs s.rem) (s.asg, s.rem)).1,
             (creditAll (deltaOf s.rem (eatRates agents prefs s.rem) s.time)
                (eatRates agents prefs s.rem) (s.asg, s.rem)).2⟩
      else some s

/-- Initial remaining supply: one unit of every object (line 23). -/
def psInitRem (objects : List Obj) : List (Obj × ℚ) :=
  objects.map (fun o => (o, 1))

/-- Function `probabilistic_serial` (lines 6-54): run the eating loop from the zero
assignment; `objects.length + 1` fuel always suffices (`psLoop_total`). -/
def probabilistic_serial (agents objects : List ℕ) (prefs : Prefs) : Asg :=
  match psLoop agents prefs (objects.length + 1) ⟨0, fun _ _ => 0, psInitRem objects⟩ with
  | some s => s.asg
  | none => fun _ _ => 0

/-! ## Random Priority (`mechanisms.py`, lines 57-92) -/

/-- One serial-dictatorship trial (lines 79-87): each agent of `order` in
turn claims the first object of its ranking still in `remaining` — a copy
of `objects` — which is then removed (Python `list.remove`, first
occurrence).  Returns the `temp_assign` pairs. -/
def rpClaim (prefs : Prefs) (order : List Agent) (objects : List Obj) :
    List (Agent × Obj) :=
  (order.foldl
    (fun (st : List (Agent × Obj) × List Obj) a =>
      match (prefs a).find? (fun o => st.2.contains o) with
      | some o => (st.1 ++ [(a, o)], st.2.erase o)
      | none => st)
    ([], objects)).1

/-- Function `random_priority` (lines 57-92): the source draws `iterations` random
agent orderings (`np.random.permutation`); the embedding receives the drawn
sequence `orders` explicitly.  Each trial credits `1/iterations` to the
cell of each (agent, claimed object) pair, so a cell's final value is the
sum below.  The `agents` argument is, as in the source, used only to key
the result dict. -/
def random_priority (objects : List Obj) (prefs : Prefs)
    (orders : List (List Agent)) (iterations : ℕ) : Asg :=
  fun a o =>
    qsum (orders.map (fun ord =>
      if alook (rpClaim prefs ord objects) a = some o then mkRat 1 iterations else 0))

/-! ## Popular assignment (`mechanisms.py`, lines 95-137) -/

/-- The return expression of `popular_assignment` (line 137): the matrix of
raw `varValue`s, with no check of the solver status.  The external solver
call (line 136) is a parameter: `some p` when the solver populated the
variables, `none` when it failed and left every `varValue` unset (pulp then
reports `None` for each variable). -/
def popular_return (sol : Option Asg) : Agent → Obj → Option ℚ :=
  fun a o => sol.map (fun p => p a o)

/-! ## Property verifier (`verify_properties.py`) -/

/-- Rank of an object in a ranking: Python `list.index` (first position);
total here, as every use below ranks objects that occur in the list. -/
def rnkIn (l : List Obj) (o : Obj) : ℕ := l.indexOf o

/-- Function `is_pareto_optimal` (`verify_properties.py`, lines 41-50): a
deterministic assignment (permutation aligned with the agents list) passes
iff no *pairwise* swap between two agents makes both strictly better by
rank. -/
def is_pareto_optimal (agents : List Agent) (prefs : Prefs) (perm : List Obj) : Bool :=
  !((List.range agents.length).any (fun i =>
    (List.range agents.length).any (fun j =>
      decide (i ≠ j) &&
      decide (rnkIn (prefs (agents.getD i 0)) (perm.getD j 0) <
              rnkIn (prefs (agents.getD i 0)) (perm.getD i 0)) &&
      decide (rnkIn (prefs (agents.getD j 0)) (perm.getD i 0) <
              rnkIn (prefs (agents.getD j 0)) (perm.getD j 0)))))

/-- The permutations kept by line 52: all permutations of the object list
that pass `is_pareto_optimal`. -/
def paretoPerms (agents : List Agent) (prefs : Prefs) (objects : List Obj) :
    List (List Obj) :=
  objects.permutations'.filter (is_pareto_optimal agents prefs)

/-- One row sum of the feasibility LP of lines 54-67: total weight placed on
permutations that give the agent at position `i` the object `o`. -/
def cellSum (w : List Obj → ℚ) (perms : List (List Obj)) (i : ℕ) (o : Obj) : ℚ :=
  qsum (perms.map (fun p => if p.get? i = some o then w p else 0))

/-- The cell constraints of the feasibility LP (lines 54-59): the weighted
combination reproduces the assignment cell by cell. -/
def lpCells (w : List Obj → ℚ) (perms : List (List Obj)) (agents : List Agent)
    (objects : List Obj) (asg : Asg) : Prop :=
  ∀ ia ∈ agents.enum, ∀ o ∈ objects, cellSum w perms ia.1 o = asg ia.2 o

/-- Function `check_ex_post_efficiency` (lines 17-69): scipy's feasibility LP over
the `is_pareto_optimal`-filtered permutations, modeled as an exact
feasibility oracle: `True` iff weights in `[0, 1]` reproduce the assignment
cell by cell. -/
def check_ex_post_efficiency (asg : Asg) (prefs : Prefs) (agents : List Agent)
    (objects : List Obj) : Prop :=
  ∃ w : List Obj → ℚ,
    (∀ p ∈ paretoPerms agents prefs objects, 0 ≤ w p ∧ w p ≤ 1) ∧
    lpCells w (paretoPerms agents prefs objects) agents objects asg

/-- The spec's notion of domination between deterministic assignments: `q`
makes every agent weakly better by rank than `p` and some agent strictly
better. -/
def specDominates (agents : List Agent) (prefs : Prefs) (q p : List Obj) : Bool :=
  ((List.range agents.length).all (fun k =>
    decide (rnkIn (prefs (agents.getD k 0)) (q.getD k 0) ≤
            rnkIn (prefs (agents.getD k 0)) (p.getD k 0)))) &&
  ((List.range agents.length).any (fun k =>
    decide (rnkIn (prefs (agents.getD k 0)) (q.getD k 0) <
            rnkIn (prefs (agents.getD k 0)) (p.getD k 0))))

/-- The spec's notion of Pareto optimality: no deterministic reallocation of
the objects (any permutation) dominates `p`. -/
def specParetoOptimal (agents : List Agent) (prefs : Prefs) (objects : List Obj)
    (p : List Obj) : Bool :=
  !(objects.permutations'.any (fun q => specDominates agents prefs q p))

/-- The spec-side permutation list: the truly Pareto-optimal deterministic
assignments. -/
def specParetoPerms (agents : List Agent) (prefs : Prefs) (objects : List Obj) :
    List (List Obj) :=
  objects.permutations'.filter (specParetoOptimal agents prefs objects)

/-- The claim's property for C2: the assignment is a convex combination
(nonnegative weights summing to 1) of the truly Pareto-optimal
deterministic assignments. -/
def specExPostEfficient (asg : Asg) (prefs : Prefs) (agents : List Agent)
    (objects : List Obj) : Prop :=
  ∃ w : List Obj → ℚ,
    (∀ p ∈ specParetoPerms agents prefs objects, 0 ≤ w p) ∧
    qsum ((specParetoPerms agents prefs objects).map w) = 1 ∧
    lpCells w (specParetoPerms agents prefs objects) agents objects asg

/-- A nonnegative-weight convex combination over the code's
`is_pareto_optimal` permutations (the amended C2 property). -/
def codeConvexCombination (asg : Asg) (prefs : Prefs) (agents : List Agent)
    (objects : List Obj) : Prop :=
  ∃ w : List Obj → ℚ,
    (∀ p ∈ paretoPerms agents prefs objects, 0 ≤ w p) ∧
    qsum ((paretoPerms agents prefs objects).map w) = 1 ∧
    lpCells w (paretoPerms agents prefs objects) agents objects asg

/-- The edge test of `check_ordinal_efficiency` (lines 96-101): there is an
edge from `b` to `w` iff some agent lists `b` at position `i`, lists `w`
after position `i`, and receives more than `eps` of `w`. -/
def edgeB (asg : Asg) (prefs : Prefs) (agents : List Agent) (b w : Obj) : Bool :=
  agents.any (fun a =>
    (List.range (prefs a).length).any (fun i =>
      ((prefs a).drop (i + 1)).any (fun worse =>
        decide (eps < asg a worse) && ((prefs a).get? i == some b) && (worse == w))))

/-- Function `check_ordinal_efficiency` (lines 71-107): `True` iff the dominance
graph with `edgeB` edges has no directed cycle (`networkx.find_cycle`
modeled exactly as reachability of a vertex from itself through a nonempty
edge path). -/
def check_ordinal_efficiency (asg : Asg) (prefs : Prefs) (agents : List Agent) : Prop :=
  ∀ v, ¬ Relation.TransGen (fun b w => edgeB asg prefs agents b w = true) v v

/-- The claim's edge relation for C3: positive probability mass instead of
the code's `> 1e-6` test. -/
def edgePos (asg : Asg) (prefs : Prefs) (agents : List Agent) (b w : Obj) : Bool :=
  agents.any (fun a =>
    (List.range (prefs a).length).any (fun i =>
      ((prefs a).drop (i + 1)).any (fun worse =>
        decide (0 < asg a worse) && ((prefs a).get? i == some b) && (worse == w))))

/-- Acyclicity of the positive-mass dominance graph (the claim's stated C3
property). -/
def specOrdinalEfficient (asg : Asg) (prefs : Prefs) (agents : List Agent) : Prop :=
  ∀ v, ¬ Relation.TransGen (fun b w => edgePos asg prefs agents b w = true) v v

/-- Utility of `who`'s bundle measured with ranking `ranking`
(the sum-comprehension of lines 133-140 and 186-193): Σ over objects of
`(n - rank) * probability`. -/
def bundleUtility (objects : List Obj) (ranking : List Obj) (asg : Asg) (who : Agent) : ℚ :=
  qsum (objects.map (fun o => qmulNat (asg who o) (objects.length - rnkIn ranking o)))

/-- Function `check_no_envy` (lines 111-143): `True` iff no agent values another
agent's bundle strictly above its own, both measured with the first agent's
ranking. -/
def check_no_envy (asg : Asg) (prefs : Prefs) (agents : List Agent)
    (objects : List Obj) : Bool :=
  agents.all (fun a1 => agents.all (fun a2 =>
    (a1 == a2) ||
    !(decide (bundleUtility objects (prefs a1) asg a1 <
              bundleUtility objects (prefs a1) asg a2))))

/-- Swap of the adjacent entries `i` and `i+1` of a ranking (lines
176-179); rankings have full length at every use. -/
def swapAdj (l : List Obj) (i : ℕ) : List Obj :=
  match l.get? i, l.get? (i + 1) with
  | some x, some y => (l.set i y).set (i + 1) x
  | _, _ => l

/-- Inner loop of `check_strategy_proofness` (lines 174-195) for one agent:
for each adjacent-swap index, write the misreported ranking into the
preferences dict, re-run the mechanism (`mechSeq t` is the `t`-th mechanism
invocation — the index models the fresh randomness each call draws), and
return `False` immediately — with the dict still misreported — if the true
utility improved.  When the loop completes, the agent's entry is restored
(line 198). -/
def spInner (mechSeq : ℕ → Prefs → Asg) (objects : List Obj) (asg : Asg)
    (agent : Agent) (orig : List Obj) :
    List ℕ → ℕ → Prefs → Bool × Prefs × ℕ
  | [], t, prefs => (true, updatePref prefs agent orig, t)
  | i :: rest, t, prefs =>
      let prefs2 := updatePref prefs agent (swapAdj orig i)
      let newAsg := mechSeq t prefs2
      if bundleUtility objects orig asg agent <
         bundleUtility objects orig newAsg agent then
        (false, prefs2, t + 1)
      else spInner mechSeq objects asg agent orig rest (t + 1) prefs2

/-- Outer loop of `check_strategy_proofness` (line 172): agents in order;
an inner `False` propagates immediately. -/
def spOuter (mechSeq : ℕ → Prefs → Asg) (objects : List Obj) (asg : Asg) :
    List Agent → ℕ → Prefs → Bool × Prefs × ℕ
  | [], t, prefs => (true, prefs, t)
  | a :: rest, t, prefs =>
      let r := spInner mechSeq objects asg a (prefs a)
        (List.range (objects.length - 1)) t prefs
      if r.1 then spOuter mechSeq objects asg rest r.2.2 r.2.1
      else r

/-- Function `check_strategy_proofness` (lines 146-200).  The mechanism looked up in
`MECHANISMS` is the parameter `mechSeq` (indexed by invocation to model the
randomness Random Priority draws afresh on each call).  Returns the boolean
verdict together with the final contents of the `preferences` dict, which
the source mutates in place. -/
def check_strategy_proofness (asg : Asg) (prefs : Prefs) (agents : List Agent)
    (objects : List Obj) (mechSeq : ℕ → Prefs → Asg) : Bool × Prefs :=
  let r := spOuter mechSeq objects asg agents 0 prefs
  (r.1, r.2.1)

/-- The claim's rank-based edge relation for the ordinal-efficiency graph:
some agent ranks `b` strictly above `w` and holds more than `eps` of `w`. -/
def edgeRank (asg : Asg) (prefs : Prefs) (agents : List Agent) (b w : Obj) : Prop :=
  ∃ a ∈ agents, b ∈ prefs a ∧ w ∈ prefs a ∧
    rnkIn (prefs a) b < rnkIn (prefs a) w ∧ eps < asg a w

/-- Variable-level embedding of `random_priority`'s trial loop (lines
77-90), threading the Python variables through every trial: the
`assignment` accumulator and the caller's `objects` list.  Line 79 copies
`objects` into `remaining`, so `remaining.remove(obj)` (line 86, `erase`
inside `rpClaim`) consumes the copy and the `objects` variable is passed
on unchanged. -/
def rpLoopST (prefs : Prefs) (iterations : ℕ) :
    List (List Agent) → Asg × List Obj → Asg × List Obj
  | [], st => st
  | ord :: rest, st =>
      let claims := rpClaim prefs ord st.2
      let asg2 : Asg := fun a o =>
        if alook claims a = some o then qadd (st.1 a o) (mkRat 1 iterations)
        else st.1 a o
      rpLoopST prefs iterations rest (asg2, st.2)

/-! ## Concrete instances used by the claims -/

/-- Identical rankings `[X, Y]` for every agent (objects `X = 10`,
`Y = 11`). -/
def prefsTied : Prefs := fun _ => [10, 11]

/-- Opposed rankings: agent `0` ranks `[10, 11]`, every other agent ranks
`[11, 10]`. -/
def prefsOpp : Prefs := fun a => if a = 0 then [10, 11] else [11, 10]

/-- A malformed profile: agent `0`'s ranking omits object `11`. -/
def prefsMal : Prefs := fun a => if a = 0 then [10] else [10, 11]

/-- The everywhere-empty ranking profile. -/
def prefsEmpty : Prefs := fun _ => []

/-- A doubly stochastic assignment with entries `1/2000000`, positive but
below the `1e-6` threshold, off the diagonal. -/
def asgTiny : Asg := fun a o =>
  if a = 0 then (if o = 10 then qsub 1 (mkRat 1 2000000) else mkRat 1 2000000)
  else (if o = 10 then mkRat 1 2000000 else qsub 1 (mkRat 1 2000000))

/-- The deterministic assignment giving agent `0` object `11` and agent `1`
object `10`. -/
def asgSwapped : Asg := fun a o =>
  if (a = 0 ∧ o = 11) ∨ (a = 1 ∧ o = 10) then 1 else 0

/-- The deterministic assignment giving agent `0` object `10` and agent `1`
object `11`. -/
def asgId : Asg := fun a o =>
  if (a = 0 ∧ o = 10) ∨ (a = 1 ∧ o = 11) then 1 else 0

/-- The uniform half/half assignment on two agents and two objects. -/
def asgHalf : Asg := fun _ _ => mkRat 1 2

/-- The three-agent profile of the C2 counterexample, objects
`a = 1, b = 2, c = 3`: agent 0 ranks `b > a > c`, agent 1 ranks
`c > b > a`, agent 2 ranks `a > c > b`. -/
def prefsC2 : Prefs := fun ag =>
  if ag = 0 then [2, 1, 3] else if ag = 1 then [3, 2, 1] else [1, 3, 2]

/-- The deterministic assignment `0 ↦ a, 1 ↦ b, 2 ↦ c` as a matrix. -/
def asgDet : Asg := fun ag o =>
  if (ag = 0 ∧ o = 1) ∨ (ag = 1 ∧ o = 2) ∨ (ag = 2 ∧ o = 3) then 1 else 0

/-- The weight function putting weight 1 on the single permutation
`[1, 2, 3]`. -/
def wDet : List Obj → ℚ := fun p => if p = [1, 2, 3] then 1 else 0

/-- A mechanism closure for `check_strategy_proofness`: Random Priority on
objects `[10, 11]` with the drawn orderings `stream t` on its `t`-th
invocation and the default 1000 iterations. -/
def rpMech (stream : ℕ → List (List Agent)) : ℕ → Prefs → Asg :=
  fun t p => random_priority [10, 11] p (stream t) 1000

/-- A randomness stream: every invocation draws 1000 copies of the ordering
`[1, 0]` (agent `1` first). -/
def streamBFirst : ℕ → List (List Agent) := fun _ => List.replicate 1000 [1, 0]

/-- A balanced randomness stream: every invocation draws 500 copies of
`[0, 1]` followed by 500 copies of `[1, 0]`. -/
def streamEven : ℕ → List (List Agent) :=
  fun _ => List.replicate 500 [0, 1] ++ List.replicate 500 [1, 0]

/-- A skewed randomness stream: the first invocation draws 400 copies of
`[0, 1]` and 600 of `[1, 0]`; later invocations are balanced. -/
def streamSkew : ℕ → List (List Agent) :=
  fun t => if t = 0 then List.replicate 400 [0, 1] ++ List.replicate 600 [1, 0]
           else List.replicate 500 [0, 1] ++ List.replicate 500 [1, 0]

/-- The mechanism closure that ignores its inputs and returns the zero
matrix (used to witness a `True` strategy-proofness run). -/
def zeroMech : ℕ → Prefs → Asg := fun _ _ _ _ => 0

/-- Closed form of `rpMech streamBFirst`: with all 1000 draws equal to
`[1, 0]`, the Monte Carlo average collapses to the single
serial-dictatorship outcome. -/
def mechBFsimp : ℕ → Prefs → Asg := fun _ p a o =>
  if alook (rpClaim p [1, 0] [10, 11]) a = some o then 1 else 0

/-- Closed form of `rpMech streamEven`: 500 draws of `[0, 1]` and 500 of
`[1, 0]` out of 1000. -/
def mechEvenSimp : ℕ → Prefs → Asg := fun _ p a o =>
  qadd (if alook (rpClaim p [0, 1] [10, 11]) a = some o then mkRat 500 1000 else 0)
       (if alook (rpClaim p [1, 0] [10, 11]) a = some o then mkRat 500 1000 else 0)

/-- Closed form of `rpMech streamSkew`: the first invocation averages 400
draws of `[0, 1]` and 600 of `[1, 0]`; later invocations are balanced. -/
def mechSkewSimp : ℕ → Prefs → Asg := fun t p a o =>
  if t = 0 then
    qadd (if alook (rpClaim p [0, 1] [10, 11]) a = some o then mkRat 400 1000 else 0)
         (if alook (rpClaim p [1, 0] [10, 11]) a = some o then mkRat 600 1000 else 0)
  else
    qadd (if alook (rpClaim p [0, 1] [10, 11]) a = some o then mkRat 500 1000 else 0)
         (if alook (rpClaim p [1, 0] [10, 11]) a = some o then mkRat 500 1000 else 0)

/-! ## Theorems: executable arithmetic agrees with `ℚ` arithmetic -/

theorem qadd_eq (a b : ℚ) : qadd a b = a + b := by
  have ha : ((a.den : ℚ)) ≠ 0 := by exact_mod_cast a.den_nz
  have hb : ((b.den : ℚ)) ≠ 0 := by exact_mod_cast b.den_nz
  rw [qadd, Rat.mkRat_eq_div]
  conv_rhs => rw [← Rat.num_div_den a, ← Rat.num_div_den b]
  rw [div_add_div _ _ ha hb]
  push_cast
  ring_nf

theorem qsub_eq (a b : ℚ) : qsub a b = a - b := by
  have ha : ((a.den : ℚ)) ≠ 0 := by exact_mod_cast a.den_nz
  have hb : ((b.den : ℚ)) ≠ 0 := by exact_mod_cast b.den_nz
  rw [qsub, Rat.mkRat_eq_div]
  conv_rhs => rw [← Rat.num_div_den a, ← Rat.num_div_den b]
  rw [div_sub_div _ _ ha hb]
  push_cast
  ring_nf

theorem qdivNat_eq (a : ℚ) (n : ℕ) : qdivNat a n = a / n := by
  rw [qdivNat, Rat.mkRat_eq_div]
  conv_rhs => rw [← Rat.num_div_den a]
  push_cast
  rw [div_div]

theorem qmulNat_eq (a : ℚ) (n : ℕ) : qmulNat a n = a * n := by
  rw [qmulNat, Rat.mkRat_eq_div]
  conv_rhs => rw [← Rat.num_div_den a]
  push_cast
  rw [div_mul_eq_mul_div]

theorem qmin_eq (a b : ℚ) : qmin a b = min a b := by
  rw [qmin, min_def]

theorem qsum_nil : qsum [] = 0 := rfl

theorem qsum_cons (a : ℚ) (l : List ℚ) : qsum (a :: l) = a + qsum l := by
  rw [qsum, List.foldr_cons, qadd_eq]
  rfl

theorem qsum_eq (l : List ℚ) : qsum l = l.sum := by
  induction l with
  | nil => rfl
  | cons a l ih => rw [qsum_cons, List.sum_cons, ih]

theorem eps_eq : eps = 1 / 1000000 := by
  rw [eps, Rat.mkRat_eq_div]
  norm_num

theorem eps_pos : 0 < eps := by rw [eps_eq]; norm_num

/-! ## Theorems for the claims about Probabilistic Serial runs -/

/-- C9: on the n = 2 instance where both agents rank `[X, Y]` identically
(agents `A = 0`, `B = 1`, objects `X = 10`, `Y = 11`), Probabilistic Serial
returns exactly the split `A: X = 1/2, Y = 1/2; B: X = 1/2, Y = 1/2`. -/
theorem ps_identical_prefs_half_split :
    probabilistic_serial [0, 1] [10, 11] prefsTied 0 10 = 1 / 2 ∧
    probabilistic_serial [0, 1] [10, 11] prefsTied 0 11 = 1 / 2 ∧
    probabilistic_serial [0, 1] [10, 11] prefsTied 1 10 = 1 / 2 ∧
    probabilistic_serial [0, 1] [10, 11] prefsTied 1 11 = 1 / 2 := by
  have h : (1 / 2 : ℚ) = mkRat 1 2 := by rw [Rat.mkRat_eq_div]; norm_num
  rw [h]
  refine ⟨?_, ?_, ?_, ?_⟩ <;> decide

/-- C5 counterexample: on the malformed profile in which agent `0`'s
ranking omits object `11`, `probabilistic_serial` does not fail: it runs to
completion and returns an assignment whose row for agent `0` sums to `1/2`
— a silently coerced partial computation rather than a descriptive error. -/
theorem ps_malformed_silent :
    probabilistic_serial [0, 1] [10, 11] prefsMal 0 10 = mkRat 1 2 ∧
    probabilistic_serial [0, 1] [10, 11] prefsMal 0 11 = 0 ∧
    qsum ([10, 11].map (probabilistic_serial [0, 1] [10, 11] prefsMal 0)) = mkRat 1 2 := by
  refine ⟨?_, ?_, ?_⟩ <;> decide

/-- C5 amended: the core mechanisms perform no input validation.  On the
profile missing object `11` from agent `0`'s ranking, `random_priority`
(one trial, priority order `[1, 0]`) returns normally, leaving agent `0`
with an empty bundle, and `probabilistic_serial` returns normally with
agent `1` receiving `1/2 + 1/2`; the missing object is simply never claimed
for agent `0` and no error is raised. -/
theorem mechanisms_accept_malformed :
    random_priority [10, 11] prefsMal [[1, 0]] 1 0 10 = 0 ∧
    random_priority [10, 11] prefsMal [[1, 0]] 1 0 11 = 0 ∧
    random_priority [10, 11] prefsMal [[1, 0]] 1 1 10 = 1 ∧
    random_priority [10, 11] prefsMal [[1, 0]] 1 1 11 = 0 ∧
    probabilistic_serial [0, 1] [10, 11] prefsMal 1 10 = mkRat 1 2 ∧
    probabilistic_serial [0, 1] [10, 11] prefsMal 1 11 = mkRat 1 2 := by
  refine ⟨?_, ?_, ?_, ?_, ?_, ?_⟩ <;> decide

/-! ## Association-list lemmas -/

theorem alook_aset_self {l : List (Obj × ℚ)} {k : Obj} {r : ℚ} (v : ℚ)
    (h : alook l k = some r) : alook (aset l k v) k = some v := by
  induction l with
  | nil => simp [alook] at h
  | cons p rest ih =>
      by_cases hp : p.1 = k
      · simp [aset, hp, alook]
      · simp only [alook, if_neg hp] at h
        simp [aset, hp, alook, ih h]

theorem alook_aset_ne {l : List (Obj × ℚ)} {k o : Obj} (h : k ≠ o) (v : ℚ) :
    alook (aset l k v) o = alook l o := by
  induction l with
  | nil => rfl
  | cons p rest ih =>
      by_cases hp : p.1 = k
      · have hpo : p.1 ≠ o := by rw [hp]; exact h
        simp [aset, hp, alook, h, hpo]
      · simp [aset, hp, alook, ih]

theorem alook_adel_ne {l : List (Obj × ℚ)} {k o : Obj} (h : k ≠ o) :
    alook (adel l k) o = alook l o := by
  induction l with
  | nil => rfl
  | cons p rest ih =>
      by_cases hp : p.1 = k
      · have hpo : p.1 ≠ o := by rw [hp]; exact h
        simp [adel, hp, alook, hpo, h]
      · simp [adel, hp, alook, ih]

theorem aset_keys (l : List (Obj × ℚ)) (k : Obj) (v : ℚ) :
    (aset l k v).map Prod.fst = l.map Prod.fst := by
  induction l with
  | nil => rfl
  | cons p rest ih =>
      by_cases hp : p.1 = k
      · simp [aset, hp]
      · simp [aset, hp, ih]

theorem adel_sublist (l : List (Obj × ℚ)) (k : Obj) : (adel l k).Sublist l := by
  induction l with
  | nil => simp [adel]
  | cons p rest ih =>
      by_cases hp : p.1 = k
      · simp only [adel, if_pos hp]
        exact List.sublist_cons_self p rest
      · simp only [adel, if_neg hp]
        exact ih.cons₂ p

theorem alook_none_of_not_mem {l : List (Obj × ℚ)} {k : Obj}
    (h : k ∉ l.map Prod.fst) : alook l k = none := by
  induction l with
  | nil => rfl
  | cons p rest ih =>
      simp only [List.map_cons, List.mem_cons, not_or] at h
      have h1 : p.1 ≠ k := fun he => h.1 he.symm
      simp [alook, h1, ih h.2]

theorem alook_adel_self {l : List (Obj × ℚ)} (k : Obj)
    (hnd : (l.map Prod.fst).Nodup) : alook (adel l k) k = none := by
  induction l with
  | nil => rfl
  | cons p rest ih =>
      simp only [List.map_cons, List.nodup_cons] at hnd
      by_cases hp : p.1 = k
      · have : k ∉ rest.map Prod.fst := by rw [← hp]; exact hnd.1
        simp [adel, hp, alook_none_of_not_mem this]
      · simp [adel, hp, alook, ih hnd.2]

theorem aset_length (l : List (Obj × ℚ)) (k : Obj) (v : ℚ) :
    (aset l k v).length = l.length := by
  induction l with
  | nil => rfl
  | cons p rest ih =>
      by_cases hp : p.1 = k
      · simp [aset, hp]
      · simp [aset, hp, ih]

theorem adel_length_le (l : List (Obj × ℚ)) (k : Obj) :
    (adel l k).length ≤ l.length :=
  (adel_sublist l k).length_le

theorem adel_length_lt {l : List (Obj × ℚ)} {k : Obj} {r : ℚ}
    (h : alook l k = some r) : (adel l k).length < l.length := by
  induction l with
  | nil => simp [alook] at h
  | cons p rest ih =>
      by_cases hp : p.1 = k
      · simp [adel, hp]
      · simp only [alook, if_neg hp] at h
        simpa [adel, hp] using ih h

/-! ## Crediting-loop lemmas -/

theorem creditOne_rem_cases (d : ℚ) (st : Asg × List (Obj × ℚ)) (p : Agent × Obj) :
    (creditOne d st p).2 = st.2 ∨
    (∃ r, alook st.2 p.2 = some r ∧ qsub r d < eps ∧
      (creditOne d st p).2 = adel st.2 p.2) ∨
    (∃ r, alook st.2 p.2 = some r ∧ ¬ qsub r d < eps ∧
      (creditOne d st p).2 = aset st.2 p.2 (qsub r d)) := by
  cases h : alook st.2 p.2 with
  | none => left; simp [creditOne, h]
  | some r =>
      by_cases hb : qsub r d < eps
      · exact Or.inr (Or.inl ⟨r, rfl, hb, by simp [creditOne, h, hb]⟩)
      · exact Or.inr (Or.inr ⟨r, rfl, hb, by simp [creditOne, h, hb]⟩)

theorem creditOne_length_le (d : ℚ) (st : Asg × List (Obj × ℚ)) (p : Agent × Obj) :
    (creditOne d st p).2.length ≤ st.2.length := by
  rcases creditOne_rem_cases d st p with h | ⟨r, _, _, h⟩ | ⟨r, _, _, h⟩
  · rw [h]
  · rw [h]; exact adel_length_le _ _
  · rw [h, aset_length]

theorem creditAll_cons (d : ℚ) (p : Agent × Obj) (er : List (Agent × Obj))
    (st : Asg × List (Obj × ℚ)) :
    creditAll d (p :: er) st = creditAll d er (creditOne d st p) := rfl

theorem creditAll_length_le (d : ℚ) :
    ∀ (er : List (Agent × Obj)) (st : Asg × List (Obj × ℚ)),
      (creditAll d er st).2.length ≤ st.2.length := by
  intro er
  induction er with
  | nil => intro st; exact le_refl _
  | cons p rest ih =>
      intro st
      rw [creditAll_cons]
      exact le_trans (ih _) (creditOne_length_le d st p)

theorem creditOne_alook_none {d : ℚ} {st : Asg × List (Obj × ℚ)}
    {p : Agent × Obj} {o : Obj} (h : alook st.2 o = none) :
    alook (creditOne d st p).2 o = none := by
  rcases creditOne_rem_cases d st p with hc | ⟨r, hr, _, hc⟩ | ⟨r, hr, _, hc⟩
  · rw [hc]; exact h
  · rw [hc]
    by_cases he : p.2 = o
    · rw [he] at hr; rw [h] at hr; cases hr
    · rw [alook_adel_ne he]; exact h
  · rw [hc]
    by_cases he : p.2 = o
    · rw [he] at hr; rw [h] at hr; cases hr
    · rw [alook_aset_ne he]; exact h

theorem creditAll_alook_none (d : ℚ) :
    ∀ (er : List (Agent × Obj)) (st : Asg × List (Obj × ℚ)) (o : Obj),
      alook st.2 o = none → alook (creditAll d er st).2 o = none := by
  intro er
  induction er with
  | nil => intro st o h; exact h
  | cons p rest ih =>
      intro st o h
      rw [creditAll_cons]
      exact ih _ o (creditOne_alook_none h)

theorem creditOne_keys_nodup {d : ℚ} {st : Asg × List (Obj × ℚ)} {p : Agent × Obj}
    (h : (st.2.map Prod.fst).Nodup) :
    ((creditOne d st p).2.map Prod.fst).Nodup := by
  rcases creditOne_rem_cases d st p with hc | ⟨r, _, _, hc⟩ | ⟨r, _, _, hc⟩
  · rw [hc]; exact h
  · rw [hc]; exact h.sublist ((adel_sublist st.2 p.2).map Prod.fst)
  · rw [hc, aset_keys]; exact h

theorem creditAll_keys_nodup (d : ℚ) :
    ∀ (er : List (Agent × Obj)) (st : Asg × List (Obj × ℚ)),
      (st.2.map Prod.fst).Nodup → ((creditAll d er st).2.map Prod.fst).Nodup := by
  intro er
  induction er with
  | nil => intro st h; exact h
  | cons p rest ih =>
      intro st h
      rw [creditAll_cons]
      exact ih _ (creditOne_keys_nodup h)

theorem creditAll_length_lt (d : ℚ) :
    ∀ (er : List (Agent × Obj)) (st : Asg × List (Obj × ℚ)) (o : Obj),
      (alook st.2 o).isSome → alook (creditAll d er st).2 o = none →
      (creditAll d er st).2.length < st.2.length := by
  intro er
  induction er with
  | nil =>
      intro st o h1 h2
      have h2' : alook st.2 o = none := h2
      rw [h2'] at h1
      simp at h1
  | cons p rest ih =>
      intro st o h1 h2
      rw [creditAll_cons] at h2 ⊢
      rcases creditOne_rem_cases d st p with hc | ⟨r, hr, _, hc⟩ | ⟨r, hr, _, hc⟩
      · have := ih (creditOne d st p) o (by rw [hc]; exact h1) h2
        rwa [hc] at this
      · have hlt : (adel st.2 p.2).length < st.2.length := adel_length_lt hr
        have hle := creditAll_length_le d rest (creditOne d st p)
        rw [hc] at hle
        exact lt_of_le_of_lt hle hlt
      · have hpres : (alook (creditOne d st p).2 o).isSome := by
          rw [hc]
          by_cases he : p.2 = o
          · rw [he] at hr ⊢
            rw [alook_aset_self (qsub r d) hr]
            rfl
          · rw [alook_aset_ne he]; exact h1
        have := ih (creditOne d st p) o hpres h2
        rw [hc, aset_length] at this
        exact this

theorem creditAll_del (d : ℚ) :
    ∀ (er : List (Agent × Obj)) (st : Asg × List (Obj × ℚ)) (o : Obj) (r : ℚ),
      (st.2.map Prod.fst).Nodup →
      alook st.2 o = some r →
      1 ≤ (er.filter (fun q => q.2 = o)).length →
      r - ((er.filter (fun q => q.2 = o)).length : ℚ) * d < eps →
      alook (creditAll d er st).2 o = none := by
  intro er
  induction er with
  | nil => intro st o r _ _ hm _; simp at hm
  | cons p rest ih =>
      intro st o r hnd hr hm harith
      rw [creditAll_cons]
      by_cases hpo : p.2 = o
      · have hro : alook st.2 p.2 = some r := by rw [hpo]; exact hr
        have hcount : ((p :: rest).filter (fun q => q.2 = o)).length
            = (rest.filter (fun q => q.2 = o)).length + 1 := by
          simp [List.filter_cons, hpo]
        by_cases hb : qsub r d < eps
        · have h2 : (creditOne d st p).2 = adel st.2 p.2 := by
            simp [creditOne, hro, hb]
          apply creditAll_alook_none
          rw [h2, hpo]
          exact alook_adel_self o hnd
        · have h2 : (creditOne d st p).2 = aset st.2 p.2 (qsub r d) := by
            simp [creditOne, hro, hb]
          rw [qsub_eq] at hb
          have hm' : 1 ≤ (rest.filter (fun q => q.2 = o)).length := by
            by_contra hm0
            have hz : (rest.filter (fun q => q.2 = o)).length = 0 := by omega
            rw [hcount, hz] at harith
            push_cast at harith
            exact hb (by linarith)
          have harith' : qsub r d -
              ((rest.filter (fun q => q.2 = o)).length : ℚ) * d < eps := by
            rw [qsub_eq]
            rw [hcount] at harith
            push_cast at harith
            linarith
          have hpres : alook (creditOne d st p).2 o = some (qsub r d) := by
            rw [h2, hpo]
            exact alook_aset_self (qsub r d) hr
          have hnd2 : ((creditOne d st p).2.map Prod.fst).Nodup :=
            creditOne_keys_nodup hnd
          exact ih (creditOne d st p) o (qsub r d) hnd2 hpres hm' harith'
      · have hcount : ((p :: rest).filter (fun q => q.2 = o)).length
            = (rest.filter (fun q => q.2 = o)).length := by
          simp [List.filter_cons, hpo]
        rw [hcount] at hm harith
        have hnd2 : ((creditOne d st p).2.map Prod.fst).Nodup :=
          creditOne_keys_nodup hnd
        have hpres : alook (creditOne d st p).2 o = some r := by
          rcases creditOne_rem_cases d st p with hc | ⟨r2, _, _, hc⟩ | ⟨r2, _, _, hc⟩
          · rw [hc]; exact hr
          · rw [hc, alook_adel_ne hpo]; exact hr
          · rw [hc, alook_aset_ne hpo]; exact hr
        exact ih (creditOne d st p) o r hnd2 hpres hm harith

/-! ## Step-length lemmas -/

theorem foldl_qmin_le_init (f : Agent × Obj → ℚ) :
    ∀ (l : List (Agent × Obj)) (b : ℚ),
      l.foldl (fun d p => qmin d (f p)) b ≤ b := by
  intro l
  induction l with
  | nil => intro b; exact le_refl b
  | cons p rest ih =>
      intro b
      calc rest.foldl (fun d p => qmin d (f p)) (qmin b (f p)) ≤ qmin b (f p) := ih _
        _ ≤ b := by rw [qmin_eq]; exact min_le_left _ _

theorem foldl_qmin_attained (f : Agent × Obj → ℚ) :
    ∀ (l : List (Agent × Obj)) (b : ℚ),
      l.foldl (fun d p => qmin d (f p)) b = b ∨
      ∃ p ∈ l, l.foldl (fun d p => qmin d (f p)) b = f p := by
  intro l
  induction l with
  | nil => intro b; left; rfl
  | cons p rest ih =>
      intro b
      rcases ih (qmin b (f p)) with h | ⟨q, hq, he⟩
      · by_cases hle : b ≤ f p
        · left
          rw [List.foldl_cons, h, qmin]
          exact if_pos hle
        · right
          refine ⟨p, List.mem_cons_self p rest, ?_⟩
          rw [List.foldl_cons, h, qmin]
          exact if_neg hle
      · exact Or.inr ⟨q, List.mem_cons_of_mem p hq, by rw [List.foldl_cons]; exact he⟩

theorem eatRates_mem {agents : List Agent} {prefs : Prefs} {rem : List (Obj × ℚ)}
    {p : Agent × Obj} (h : p ∈ eatRates agents prefs rem) :
    ∃ r, alook rem p.2 = some r ∧ eps < r := by
  rw [eatRates, List.mem_filterMap] at h
  obtain ⟨a, _, hmap⟩ := h
  cases ht : eatTarget rem (prefs a) with
  | none => rw [ht] at hmap; cases hmap
  | some o =>
      rw [ht] at hmap
      have hmap' : some (a, o) = some p := hmap
      have hp2 : p = (a, o) := (Option.some_inj.1 hmap').symm
      subst hp2
      have hpred := List.find?_some ht
      show ∃ r, alook rem o = some r ∧ eps < r
      cases hal : alook rem o with
      | none => rw [hal] at hpred; cases hpred
      | some r =>
          rw [hal] at hpred
          exact ⟨r, rfl, of_decide_eq_true hpred⟩

/-! ## Termination of the eating loop -/

theorem psLoop_not_cond {agents : List Agent} {prefs : Prefs} {fuel : ℕ}
    {s : PSState} (h : ¬ (s.time < 1 ∧ s.rem ≠ [])) :
    psLoop agents prefs fuel s = some s := by
  cases fuel <;> simp [psLoop, h]

theorem psLoop_step {agents : List Agent} {prefs : Prefs} (fuel : ℕ)
    {s : PSState} (hc : s.time < 1 ∧ s.rem ≠ [])
    (her : eatRates agents prefs s.rem ≠ []) :
    psLoop agents prefs (fuel + 1) s =
      psLoop agents prefs fuel
        ⟨qadd s.time (deltaOf s.rem (eatRates agents prefs s.rem) s.time),
         (creditAll (deltaOf s.rem (eatRates agents prefs s.rem) s.time)
            (eatRates agents prefs s.rem) (s.asg, s.rem)).1,
         (creditAll (deltaOf s.rem (eatRates agents prefs s.rem) s.time)
            (eatRates agents prefs s.rem) (s.asg, s.rem)).2⟩ := by
  conv_lhs => rw [psLoop]
  rw [if_pos hc, if_neg her]

theorem psLoop_total (agents : List Agent) (prefs : Prefs) :
    ∀ (fuel : ℕ) (s : PSState), (s.rem.map Prod.fst).Nodup →
      s.rem.length < fuel → ∃ r, psLoop agents prefs fuel s = some r := by
  intro fuel
  induction fuel with
  | zero => intro s _ h; exact absurd h (Nat.not_lt_zero _)
  | succ fuel ih =>
      intro s hnd hlen
      by_cases hc : s.time < 1 ∧ s.rem ≠ []
      · by_cases her : eatRates agents prefs s.rem = []
        · refine ⟨s, ?_⟩
          conv_lhs => rw [psLoop]
          rw [if_pos hc, if_pos her]
        · rw [psLoop_step fuel hc her]
          by_cases ht : qadd s.time (deltaOf s.rem (eatRates agents prefs s.rem) s.time) < 1
          · rcases foldl_qmin_attained
              (fun p => qdivNat ((alook s.rem p.2).getD 0)
                ((eatRates agents prefs s.rem).filter
                  (fun q => q.2 = p.2)).length)
              (eatRates agents prefs s.rem) (qsub 1 s.time) with hb | ⟨p, hp, he⟩
            · exfalso
              have hdd : deltaOf s.rem (eatRates agents prefs s.rem) s.time
                  = qsub 1 s.time := hb
              rw [hdd, qadd_eq, qsub_eq] at ht
              linarith
            · obtain ⟨r, hrl, hre⟩ := eatRates_mem hp
              have hdd : deltaOf s.rem (eatRates agents prefs s.rem) s.time
                  = qdivNat r ((eatRates agents prefs s.rem).filter
                      (fun q => q.2 = p.2)).length := by
                rw [deltaOf]
                rw [he, hrl]
                rfl
              have hm1 : 1 ≤ ((eatRates agents prefs s.rem).filter
                  (fun q => q.2 = p.2)).length := by
                have hmem : p ∈ (eatRates agents prefs s.rem).filter
                    (fun q => q.2 = p.2) := List.mem_filter.2 ⟨hp, by simp⟩
                exact List.length_pos_of_mem hmem
              have harith : r - (((eatRates agents prefs s.rem).filter
                  (fun q => q.2 = p.2)).length : ℚ) *
                  deltaOf s.rem (eatRates agents prefs s.rem) s.time < eps := by
                rw [hdd, qdivNat_eq]
                have hm0 : (((eatRates agents prefs s.rem).filter
                    (fun q => q.2 = p.2)).length : ℚ) ≠ 0 := by
                  have : (0 : ℚ) < (((eatRates agents prefs s.rem).filter
                      (fun q => q.2 = p.2)).length : ℚ) := by
                    exact_mod_cast lt_of_lt_of_le Nat.zero_lt_one hm1
                  linarith
                rw [mul_div_cancel₀ r hm0]
                simpa using eps_pos
              have hdel := creditAll_del
                (deltaOf s.rem (eatRates agents prefs s.rem) s.time)
                (eatRates agents prefs s.rem) (s.asg, s.rem) p.2 r hnd hrl hm1 harith
              have hsome : (alook ((s.asg, s.rem) :
                  Asg × List (Obj × ℚ)).2 p.2).isSome := by rw [hrl]; rfl
              have hlt2 := creditAll_length_lt
                (deltaOf s.rem (eatRates agents prefs s.rem) s.time)
                (eatRates agents prefs s.rem) (s.asg, s.rem) p.2 hsome hdel
              have hnd2 := creditAll_keys_nodup
                (deltaOf s.rem (eatRates agents prefs s.rem) s.time)
                (eatRates agents prefs s.rem) (s.asg, s.rem) hnd
              apply ih
              · exact hnd2
              · exact lt_of_lt_of_le hlt2 (Nat.lt_succ_iff.1 hlen)
          · exact ⟨_, psLoop_not_cond (fun hx => ht hx.1)⟩
      · exact ⟨s, psLoop_not_cond hc⟩

/-- C7 amended: the eating loop of `probabilistic_serial` has no explicit
iteration ceiling and reports no "did not converge" condition; instead, for
every input with distinct object names, it terminates of its own accord
within `objects.length + 1` iterations, because each iteration either
advances the clock to `1` or permanently deletes at least one object from
the remaining-supply dict. -/
theorem ps_loop_terminates (agents objects : List ℕ) (prefs : Prefs)
    (h : objects.Nodup) :
    ∃ s, psLoop agents prefs (objects.length + 1)
        ⟨0, fun _ _ => 0, psInitRem objects⟩ = some s := by
  apply psLoop_total
  · have hk : (psInitRem objects).map Prod.fst = objects := by
      rw [psInitRem, List.map_map]
      exact List.map_id objects
    rw [hk]; exact h
  · simp [psInitRem]

/-- Witness for `ps_loop_terminates` at the concrete tied-preferences
instance. -/
theorem ps_loop_terminates_witness :
    ([10, 11] : List ℕ).Nodup ∧
    ∃ s, psLoop [0, 1] prefsTied (([10, 11] : List ℕ).length + 1)
        ⟨0, fun _ _ => 0, psInitRem [10, 11]⟩ = some s :=
  ⟨by decide, ps_loop_terminates [0, 1] [10, 11] prefsTied (by decide)⟩

/-- C7 counterexample: on an input whose `eps` threshold is never crossed
(the ranking profile is empty, so nothing is ever eaten), the eating loop
stops at its first iteration with the clock still at `0` and the full
supply still present, and `probabilistic_serial` returns the ordinary
all-zero assignment — no iteration ceiling is consulted and no
"did not converge" condition is reported. -/
theorem ps_empty_prefs_returns_zero :
    (psLoop [0] prefsEmpty 2 ⟨0, fun _ _ => 0, psInitRem [10]⟩).map PSState.rem =
      some [(10, 1)] ∧
    (psLoop [0] prefsEmpty 2 ⟨0, fun _ _ => 0, psInitRem [10]⟩).map PSState.time =
      some 0 ∧
    probabilistic_serial [0] [10] prefsEmpty 0 10 = 0 := by
  refine ⟨?_, ?_, ?_⟩ <;> decide

/-! ## Strategy-proofness checking: mutation and restoration (C4) -/

theorem updatePref_collapse (p : Prefs) (a : Agent) (l1 l2 : List Obj) (x : Agent) :
    updatePref (updatePref p a l1) a l2 x = updatePref p a l2 x := by
  by_cases hx : x = a <;> simp [updatePref, hx]

theorem updatePref_self (p : Prefs) (a : Agent) (x : Agent) :
    updatePref p a (p a) x = p x := by
  by_cases hx : x = a <;> simp [updatePref, hx]

theorem qsum_replicate (n : ℕ) (c : ℚ) : qsum (List.replicate n c) = n * c := by
  induction n with
  | zero => simp [qsum]
  | succ n ih =>
      rw [List.replicate_succ, qsum_cons, ih]
      push_cast
      ring

theorem rp_replicate_cell (objects : List Obj) (prefs : Prefs) (ord : List Agent)
    (a : Agent) (o : Obj) {n : ℕ} (hn : 0 < n) :
    random_priority objects prefs (List.replicate n ord) n a o
      = if alook (rpClaim prefs ord objects) a = some o then 1 else 0 := by
  rw [random_priority, List.map_replicate, qsum_replicate]
  have hn0 : ((n : ℚ)) ≠ 0 := Nat.cast_ne_zero.2 hn.ne'
  by_cases hcond : alook (rpClaim prefs ord objects) a = some o
  · rw [if_pos hcond, if_pos hcond, Rat.mkRat_eq_div]
    push_cast
    field_simp
  · rw [if_neg hcond, if_neg hcond, mul_zero]

theorem spInner_ext {m1 m2 : ℕ → Prefs → Asg} (h : ∀ t p, m1 t p = m2 t p)
    (objects : List Obj) (asg : Asg) (agent : Agent) (orig : List Obj) :
    ∀ (idxs : List ℕ) (t : ℕ) (prefs : Prefs),
      spInner m1 objects asg agent orig idxs t prefs
        = spInner m2 objects asg agent orig idxs t prefs := by
  intro idxs
  induction idxs with
  | nil => intro t prefs; rfl
  | cons i rest ih =>
      intro t prefs
      simp only [spInner]
      rw [h t (updatePref prefs agent (swapAdj orig i)), ih]

theorem spOuter_ext {m1 m2 : ℕ → Prefs → Asg} (h : ∀ t p, m1 t p = m2 t p)
    (objects : List Obj) (asg : Asg) :
    ∀ (agents : List Agent) (t : ℕ) (prefs : Prefs),
      spOuter m1 objects asg agents t prefs = spOuter m2 objects asg agents t prefs := by
  intro agents
  induction agents with
  | nil => intro t prefs; rfl
  | cons a rest ih =>
      intro t prefs
      simp only [spOuter]
      rw [spInner_ext h, ih]

theorem check_sp_ext {m1 m2 : ℕ → Prefs → Asg} (h : ∀ t p, m1 t p = m2 t p)
    (asg : Asg) (prefs : Prefs) (agents : List Agent) (objects : List Obj) :
    check_strategy_proofness asg prefs agents objects m1
      = check_strategy_proofness asg prefs agents objects m2 := by
  simp only [check_strategy_proofness]
  rw [spOuter_ext h]

theorem spInner_true {mech : ℕ → Prefs → Asg} {objects : List Obj} {asg : Asg}
    {agent : Agent} {orig : List Obj} :
    ∀ (idxs : List ℕ) (t : ℕ) (prefs : Prefs),
      (spInner mech objects asg agent orig idxs t prefs).1 = true →
      ∀ x, (spInner mech objects asg agent orig idxs t prefs).2.1 x
        = updatePref prefs agent orig x := by
  intro idxs
  induction idxs with
  | nil => intro t prefs _ x; rfl
  | cons i rest ih =>
      intro t prefs h x
      simp only [spInner] at h ⊢
      by_cases hc : bundleUtility objects orig asg agent <
          bundleUtility objects orig
            (mech t (updatePref prefs agent (swapAdj orig i))) agent
      · rw [if_pos hc] at h
        cases h
      · rw [if_neg hc] at h ⊢
        rw [ih (t + 1) (updatePref prefs agent (swapAdj orig i)) h x, updatePref_collapse]

theorem spOuter_true {mech : ℕ → Prefs → Asg} {objects : List Obj} {asg : Asg} :
    ∀ (agents : List Agent) (t : ℕ) (prefs : Prefs),
      (spOuter mech objects asg agents t prefs).1 = true →
      ∀ x, (spOuter mech objects asg agents t prefs).2.1 x = prefs x := by
  intro agents
  induction agents with
  | nil => intro t prefs _ x; rfl
  | cons a rest ih =>
      intro t prefs h x
      simp only [spOuter] at h ⊢
      by_cases hr : (spInner mech objects asg a (prefs a)
          (List.range (objects.length - 1)) t prefs).1 = true
      · rw [if_pos hr] at h ⊢
        rw [ih _ _ h x]
        rw [spInner_true _ _ _ hr x, updatePref_self]
      · rw [if_neg (by simpa using hr)] at h
        exact absurd h hr

/-- C4 amended: whenever `check_strategy_proofness` returns `True`, the
preferences dict holds exactly its original contents again (each agent's
entry was restored after its inner loop).  When it returns `False` the
mutation leaks (see the counterexample theorem). -/
theorem check_sp_restores_on_true (asg : Asg) (prefs : Prefs) (agents : List Agent)
    (objects : List Obj) (mechSeq : ℕ → Prefs → Asg)
    (h : (check_strategy_proofness asg prefs agents objects mechSeq).1 = true) :
    ∀ x, (check_strategy_proofness asg prefs agents objects mechSeq).2 x = prefs x := by
  intro x
  simp only [check_strategy_proofness] at h ⊢
  exact spOuter_true agents 0 prefs h x

/-- Witness for `check_sp_restores_on_true`: a run that returns `True`
(the mechanism re-invocations return the zero matrix, so no misreport ever
improves) and hands the preferences back unchanged. -/
theorem check_sp_restores_on_true_witness :
    (check_strategy_proofness asgId prefsOpp [0, 1] [10, 11] zeroMech).1 = true ∧
    (check_strategy_proofness asgId prefsOpp [0, 1] [10, 11] zeroMech).2 0 = prefsOpp 0 :=
  ⟨by decide,
   check_sp_restores_on_true asgId prefsOpp [0, 1] [10, 11] zeroMech (by decide) 0⟩

/-- C4 counterexample: with the given assignment `A ↦ Y, B ↦ X`, opposed
true preferences, and Random Priority fed 1000 draws of the ordering
`[B, A]`, agent `A`'s first adjacent-swap misreport strictly improves its
true utility, so `check_strategy_proofness` returns `False` — and the
preferences dict is left holding the *misreported* ranking `[11, 10]` for
agent `A` instead of its original `[10, 11]`. -/
theorem check_sp_mutation_leak :
    (check_strategy_proofness asgSwapped prefsOpp [0, 1] [10, 11]
      (rpMech streamBFirst)).1 = false ∧
    (check_strategy_proofness asgSwapped prefsOpp [0, 1] [10, 11]
      (rpMech streamBFirst)).2 0 = [11, 10] ∧
    prefsOpp 0 = [10, 11] := by
  have hm : ∀ t p, rpMech streamBFirst t p = mechBFsimp t p := by
    intro t p
    funext a o
    simp only [rpMech, streamBFirst, mechBFsimp]
    exact rp_replicate_cell [10, 11] p [1, 0] a o (by norm_num)
  rw [check_sp_ext hm]
  refine ⟨?_, ?_, ?_⟩ <;> decide

/-! ## Verification re-runs and Random Priority randomness (C8) -/

theorem qsum_append (l1 l2 : List ℚ) : qsum (l1 ++ l2) = qsum l1 + qsum l2 := by
  rw [qsum_eq, qsum_eq, qsum_eq, List.sum_append]

theorem rp_two_block_cell (objects : List Obj) (prefs : Prefs)
    (ord1 ord2 : List Agent) (j k n : ℕ) (a : Agent) (o : Obj) :
    random_priority objects prefs (List.replicate j ord1 ++ List.replicate k ord2) n a o
      = (if alook (rpClaim prefs ord1 objects) a = some o
          then (j : ℚ) * mkRat 1 n else 0)
      + (if alook (rpClaim prefs ord2 objects) a = some o
          then (k : ℚ) * mkRat 1 n else 0) := by
  rw [random_priority, List.map_append, qsum_append, List.map_replicate,
    List.map_replicate, qsum_replicate, qsum_replicate, mul_ite, mul_ite,
    mul_zero, mul_zero]

theorem rpMech_even_eq : ∀ (t : ℕ) (p : Prefs),
    rpMech streamEven t p = mechEvenSimp t p := by
  intro t p
  funext a o
  have hv : ((500 : ℕ) : ℚ) * mkRat 1 1000 = mkRat 500 1000 := by
    rw [Rat.mkRat_eq_div, Rat.mkRat_eq_div]; push_cast; norm_num
  simp only [rpMech, streamEven, mechEvenSimp]
  rw [rp_two_block_cell, hv, qadd_eq]

theorem rpMech_skew_eq : ∀ (t : ℕ) (p : Prefs),
    rpMech streamSkew t p = mechSkewSimp t p := by
  intro t p
  funext a o
  have hv5 : ((500 : ℕ) : ℚ) * mkRat 1 1000 = mkRat 500 1000 := by
    rw [Rat.mkRat_eq_div, Rat.mkRat_eq_div]; push_cast; norm_num
  have hv4 : ((400 : ℕ) : ℚ) * mkRat 1 1000 = mkRat 400 1000 := by
    rw [Rat.mkRat_eq_div, Rat.mkRat_eq_div]; push_cast; norm_num
  have hv6 : ((600 : ℕ) : ℚ) * mkRat 1 1000 = mkRat 600 1000 := by
    rw [Rat.mkRat_eq_div, Rat.mkRat_eq_div]; push_cast; norm_num
  simp only [rpMech, streamSkew, mechSkewSimp]
  by_cases ht : t = 0
  · rw [if_pos ht, if_pos ht, rp_two_block_cell, hv4, hv6, qadd_eq]
  · rw [if_neg ht, if_neg ht, rp_two_block_cell, hv5, qadd_eq]

/-- C8 counterexample: on the uniform half/half assignment with opposed
preferences, the strategy-proofness verdict depends on the randomness
Random Priority draws afresh on each verification run: with the balanced
draw stream the check returns `True`, with the skewed stream it returns
`False`.  Two runs of property verification on the same assignment and
preferences therefore need not yield identical verdicts. -/
theorem sp_verdict_randomness_dependent :
    (check_strategy_proofness asgHalf prefsOpp [0, 1] [10, 11]
      (rpMech streamEven)).1 = true ∧
    (check_strategy_proofness asgHalf prefsOpp [0, 1] [10, 11]
      (rpMech streamSkew)).1 = false := by
  constructor
  · rw [check_sp_ext rpMech_even_eq]
    decide
  · rw [check_sp_ext rpMech_skew_eq]
    decide

/-- C8 amended: re-running property verification yields identical verdicts
whenever the re-invoked mechanism returns the same assignments in both
runs (in particular for the deterministic Probabilistic Serial); the three
remaining checkers read only the assignment and preferences, which are
unchanged between runs. -/
theorem sp_verdict_same_mechanism (asg : Asg) (prefs : Prefs) (agents : List Agent)
    (objects : List Obj) {m1 m2 : ℕ → Prefs → Asg} (h : ∀ t p, m1 t p = m2 t p) :
    check_strategy_proofness asg prefs agents objects m1
      = check_strategy_proofness asg prefs agents objects m2 :=
  check_sp_ext h asg prefs agents objects

/-- Witness for `sp_verdict_same_mechanism`: the balanced Random Priority
stream against its closed form. -/
theorem sp_verdict_same_mechanism_witness :
    check_strategy_proofness asgHalf prefsOpp [0, 1] [10, 11] (rpMech streamEven)
      = check_strategy_proofness asgHalf prefsOpp [0, 1] [10, 11] mechEvenSimp :=
  sp_verdict_same_mechanism asgHalf prefsOpp [0, 1] [10, 11] rpMech_even_eq

/-! ## Ordinal efficiency: the dominance graph (C3) -/

theorem transGen_exists_edge {r : Obj → Obj → Prop} {a b : Obj}
    (h : Relation.TransGen r a b) : ∃ x y, r x y := by
  induction h with
  | single hs => exact ⟨_, _, hs⟩
  | tail _ hs _ => exact ⟨_, _, hs⟩

/-- C3 counterexample: on the doubly stochastic assignment whose
off-diagonal entries are `1/2000000` — positive but not above `1e-6` —
`check_ordinal_efficiency` returns `True` (its edge test requires mass
`> 1e-6`, so the dominance graph is empty), while the claim's
positive-mass dominance graph has the two-cycle `10 → 11 → 10`, so the
claimed acyclicity property is `False`. -/
theorem ordinal_check_ignores_tiny_mass :
    check_ordinal_efficiency asgTiny prefsOpp [0, 1] ∧
    ¬ specOrdinalEfficient asgTiny prefsOpp [0, 1] := by
  constructor
  · intro v hT
    obtain ⟨x, y, hxy⟩ := transGen_exists_edge hT
    rw [edgeB] at hxy
    simp only [List.any_eq_true, List.mem_range, Bool.and_eq_true,
      decide_eq_true_eq, beq_iff_eq] at hxy
    obtain ⟨a, ha, i, hi, worse, hworse, ⟨⟨hmass, _⟩, _⟩⟩ := hxy
    have ha2 : a = 0 ∨ a = 1 := by simpa using ha
    have h1 : ¬ eps < asgTiny 0 11 := by decide
    have h2 : ¬ eps < asgTiny 1 10 := by decide
    rcases ha2 with ha0 | ha1
    · subst ha0
      have hp : prefsOpp 0 = [10, 11] := rfl
      rw [hp] at hi hworse
      have hi2 : i < 2 := by simpa using hi
      interval_cases i
      · simp at hworse
        subst hworse
        exact h1 hmass
      · simp at hworse
    · subst ha1
      have hp : prefsOpp 1 = [11, 10] := rfl
      rw [hp] at hi hworse
      have hi2 : i < 2 := by simpa using hi
      interval_cases i
      · simp at hworse
        subst hworse
        exact h2 hmass
      · simp at hworse
  · intro h
    exact h 10 (Relation.TransGen.head (b := 11) (by decide)
      (Relation.TransGen.single (by decide)))

theorem get?_indexOf {l : List Obj} {b : Obj} (h : b ∈ l) :
    l.get? (l.indexOf b) = some b := by
  induction l with
  | nil => cases h
  | cons x rest ih =>
      by_cases hx : x = b
      · simp [List.indexOf_cons, hx]
      · have hb : b ∈ rest := by
          cases h with
          | head => exact absurd rfl hx
          | tail _ h2 => exact h2
        have ih2 := ih hb
        rw [List.get?_eq_getElem?] at ih2
        simp [List.indexOf_cons, hx, ih2]

theorem indexOf_eq_of_get? {l : List Obj} (hnd : l.Nodup) :
    ∀ {i : ℕ} {b : Obj}, l.get? i = some b → l.indexOf b = i := by
  induction l with
  | nil => intro i b h; cases h
  | cons x rest ih =>
      intro i b h
      cases i with
      | zero =>
          simp only [List.get?] at h
          cases h
          simp [List.indexOf_cons]
      | succ i =>
          simp only [List.get?] at h
          have hmem : b ∈ rest := List.get?_mem h
          have hx : x ≠ b := by
            intro he
            rw [he] at hnd
            exact (List.nodup_cons.1 hnd).1 hmem
          simp [List.indexOf_cons, hx, ih (List.nodup_cons.1 hnd).2 h]

theorem mem_drop_get? {l : List Obj} {n : ℕ} {w : Obj} (h : w ∈ l.drop n) :
    ∃ j, n ≤ j ∧ l.get? j = some w := by
  obtain ⟨k, hk⟩ := List.get?_of_mem h
  refine ⟨n + k, Nat.le_add_right n k, ?_⟩
  rw [← List.get?_drop]
  exact hk

theorem get?_mem_drop {l : List Obj} {n j : ℕ} {w : Obj} (hj : n ≤ j)
    (h : l.get? j = some w) : w ∈ l.drop n := by
  have : (l.drop n).get? (j - n) = some w := by
    rw [List.get?_drop]
    have : n + (j - n) = j := by omega
    rw [this]
    exact h
  exact List.get?_mem this

theorem edgeB_iff (asg : Asg) (prefs : Prefs) (agents : List Agent)
    (hnd : ∀ a ∈ agents, (prefs a).Nodup) (b w : Obj) :
    edgeB asg prefs agents b w = true ↔ edgeRank asg prefs agents b w := by
  rw [edgeB, edgeRank]
  simp only [List.any_eq_true, List.mem_range, Bool.and_eq_true, decide_eq_true_eq,
    beq_iff_eq]
  constructor
  · rintro ⟨a, ha, i, hi, worse, hworse, ⟨⟨hmass, hb⟩, hww⟩⟩
    subst hww
    have hndl := hnd a ha
    have hbmem : b ∈ prefs a := List.get?_mem hb
    obtain ⟨j, hj, hgj⟩ := mem_drop_get? hworse
    have hwmem : worse ∈ prefs a := List.get?_mem hgj
    refine ⟨a, ha, hbmem, hwmem, ?_, hmass⟩
    rw [rnkIn, rnkIn, indexOf_eq_of_get? hndl hb, indexOf_eq_of_get? hndl hgj]
    omega
  · rintro ⟨a, ha, hbmem, hwmem, hrank, hmass⟩
    have hgb := get?_indexOf hbmem
    have hgw := get?_indexOf hwmem
    refine ⟨a, ha, (prefs a).indexOf b, List.indexOf_lt_length.2 hbmem, w,
      ?_, ⟨⟨hmass, hgb⟩, rfl⟩⟩
    rw [rnkIn, rnkIn] at hrank
    exact get?_mem_drop (by omega) hgw

/-- C3 amended: `check_ordinal_efficiency` returns `True` iff the dominance
graph is acyclic, where an edge `better → worse` exists exactly when some
agent ranks `better` strictly above `worse` and receives probability mass
strictly greater than `1e-6` (not merely positive) on `worse`; stated for
profiles whose rankings are duplicate-free. -/
theorem check_ordinal_iff_rank_acyclic (asg : Asg) (prefs : Prefs)
    (agents : List Agent) (hnd : ∀ a ∈ agents, (prefs a).Nodup) :
    check_ordinal_efficiency asg prefs agents ↔
      ∀ v, ¬ Relation.TransGen (edgeRank asg prefs agents) v v := by
  rw [check_ordinal_efficiency]
  constructor
  · intro h v hT
    exact h v (hT.mono (fun x y hxy => (edgeB_iff asg prefs agents hnd x y).2 hxy))
  · intro h v hT
    exact h v (hT.mono (fun x y hxy => (edgeB_iff asg prefs agents hnd x y).1 hxy))

/-- Witness for `check_ordinal_iff_rank_acyclic` on a concrete
duplicate-free instance. -/
theorem check_ordinal_iff_rank_acyclic_witness :
    (∀ a ∈ ([0, 1] : List Agent), (prefsOpp a).Nodup) ∧
    (check_ordinal_efficiency asgId prefsOpp [0, 1] ↔
      ∀ v, ¬ Relation.TransGen (edgeRank asgId prefsOpp [0, 1]) v v) :=
  ⟨by decide, check_ordinal_iff_rank_acyclic asgId prefsOpp [0, 1] (by decide)⟩

/-! ## Popular assignment: solver failure (C6) -/

/-- C6 counterexample: on a failed solve, line 137 returns the dict of raw
`varValue`s — an ordinary matrix whose cells are all `None` — instead of
surfacing a solver-failure error (on success it returns the populated
values). -/
theorem popular_failure_returns_none_matrix :
    popular_return none 0 10 = none ∧ popular_return (some asgId) 0 10 = some 1 := by
  refine ⟨rfl, ?_⟩
  decide

/-- C6 amended: `popular_assignment` performs no status check on the solver
outcome: its return line always yields the matrix of raw `varValue`s —
`None` in every cell when the solver failed, the solver's values when it
succeeded — and never raises. -/
theorem popular_return_unchecked :
    (∀ a o, popular_return none a o = none) ∧
    (∀ p a o, popular_return (some p) a o = some (p a o)) :=
  ⟨fun _ _ => rfl, fun _ _ _ => rfl⟩

/-! ## The mechanisms do not mutate their arguments (C10) -/

theorem rpLoopST_acc (prefs : Prefs) (iterations : ℕ) :
    ∀ (orders : List (List Agent)) (asg0 : Asg) (objects : List Obj)
      (a : Agent) (o : Obj),
      (rpLoopST prefs iterations orders (asg0, objects)).1 a o
        = asg0 a o + qsum (orders.map (fun ord =>
            if alook (rpClaim prefs ord objects) a = some o
            then mkRat 1 iterations else 0)) ∧
      (rpLoopST prefs iterations orders (asg0, objects)).2 = objects := by
  intro orders
  induction orders with
  | nil =>
      intro asg0 objects a o
      constructor
      · rw [qsum]
        simp [rpLoopST]
      · rfl
  | cons ord rest ih =>
      intro asg0 objects a o
      constructor
      · rw [List.map_cons, qsum_cons]
        simp only [rpLoopST]
        rw [(ih _ objects a o).1]
        by_cases hcond : alook (rpClaim prefs ord objects) a = some o
        · rw [if_pos hcond, if_pos hcond, qadd_eq]
          ring
        · rw [if_neg hcond, if_neg hcond]
          ring
      · simp only [rpLoopST]
        exact (ih _ objects a o).2

/-- C10: `random_priority` hands its `objects` argument back unchanged —
`remaining = objects.copy()` is consumed by `remove`, the caller's list is
only read — and the threaded accumulator agrees with the pure per-cell
embedding.  (`probabilistic_serial` and `popular_assignment` perform no
operation at all on their argument structures: the eating-loop state
`PSState` holds only the fresh `assignment`/`remaining` dicts of lines
22-23, and the LP builder only reads `preferences`.) -/
theorem random_priority_preserves_objects (prefs : Prefs) (iterations : ℕ)
    (orders : List (List Agent)) (objects : List Obj) (a : Agent) (o : Obj) :
    (rpLoopST prefs iterations orders (fun _ _ => 0, objects)).2 = objects ∧
    (rpLoopST prefs iterations orders (fun _ _ => 0, objects)).1 a o
      = random_priority objects prefs orders iterations a o := by
  constructor
  · exact (rpLoopST_acc prefs iterations orders _ objects a o).2
  · rw [(rpLoopST_acc prefs iterations orders _ objects a o).1, random_priority]
    ring

/-! ## Ex post efficiency (C2) -/

theorem cellSum_eq_zero {w : List Obj → ℚ} {i : ℕ} {o : Obj} :
    ∀ {perms : List (List Obj)}, (∀ p ∈ perms, ¬ p.get? i = some o) →
      cellSum w perms i o = 0 := by
  intro perms
  induction perms with
  | nil => intro _; rfl
  | cons p rest ih =>
      intro h
      rw [cellSum, List.map_cons, qsum_cons, if_neg (h p (List.mem_cons_self p rest))]
      have hr : cellSum w rest i o = 0 :=
        ih (fun q hq => h q (List.mem_cons_of_mem p hq))
      rw [cellSum] at hr
      rw [hr]
      ring

theorem list_sum_add {α : Type} (l : List α) (f g : α → ℚ) :
    (l.map (fun x => f x + g x)).sum = (l.map f).sum + (l.map g).sum := by
  induction l with
  | nil => simp
  | cons x rest ih =>
      simp only [List.map_cons, List.sum_cons, ih]
      ring

theorem list_sum_swap {α β : Type} (l1 : List α) (l2 : List β) (f : α → β → ℚ) :
    (l1.map (fun a => (l2.map (f a)).sum)).sum
      = (l2.map (fun b => (l1.map (fun a => f a b)).sum)).sum := by
  induction l1 with
  | nil => simp
  | cons a rest ih =>
      simp only [List.map_cons, List.sum_cons]
      rw [ih, ← list_sum_add]

theorem sum_ite_single :
    ∀ (l : List Obj), l.Nodup → ∀ x ∈ l, ∀ c : ℚ,
      (l.map (fun o => if x = o then c else 0)).sum = c := by
  intro l
  induction l with
  | nil => intro _ x hx; cases hx
  | cons y rest ih =>
      intro hnd x hx c
      rw [List.map_cons, List.sum_cons]
      rcases List.mem_cons.1 hx with he | hm
      · rw [if_pos he]
        have hz : ∀ z ∈ rest.map (fun o => if x = o then c else 0), z = 0 := by
          intro z hz
          obtain ⟨o, ho, rfl⟩ := List.mem_map.1 hz
          rw [if_neg]
          intro hxo
          apply (List.nodup_cons.1 hnd).1
          rw [← he, hxo]
          exact ho
        rw [List.sum_eq_zero hz]
        ring
      · have hxy : x ≠ y := by
          intro he2
          exact (List.nodup_cons.1 hnd).1 (he2 ▸ hm)
        rw [if_neg hxy, ih (List.nodup_cons.1 hnd).2 x hm c]
        ring

theorem paretoPerms_mem_perm {agents : List Agent} {prefs : Prefs}
    {objects : List Obj} {p : List Obj} (h : p ∈ paretoPerms agents prefs objects) :
    p.Perm objects := by
  rw [paretoPerms, List.mem_filter] at h
  exact (List.mem_permutations'.1 h.1)

/-- C2 amended: `check_ex_post_efficiency` returns `True` iff the
assignment is a *convex* combination (nonnegative weights summing to `1`)
of the permutations passing the code's pairwise-swap `is_pareto_optimal`
filter — stated for nonempty instances with duplicate-free objects whose
rows sum to 1, where the implicit weight bound `≤ 1` and the weight total
`1` of the scipy LP coincide. -/
theorem check_ex_post_iff_convex (asg : Asg) (prefs : Prefs) (agents : List Agent)
    (objects : List Obj) (hag : agents ≠ []) (hobj : objects ≠ [])
    (hnd : objects.Nodup)
    (hrow : ∀ a ∈ agents, qsum (objects.map (asg a)) = 1) :
    check_ex_post_efficiency asg prefs agents objects ↔
      codeConvexCombination asg prefs agents objects := by
  constructor
  · rintro ⟨w, hbd, hcells⟩
    refine ⟨w, fun p hp => (hbd p hp).1, ?_, hcells⟩
    obtain ⟨a0, rest, rfl⟩ := List.exists_cons_of_ne_nil hag
    have h00 : ((0, a0) : ℕ × Agent) ∈ (a0 :: rest).enum :=
      List.mem_enum_iff_get?.2 rfl
    have hc0 : ∀ o ∈ objects,
        cellSum w (paretoPerms (a0 :: rest) prefs objects) 0 o = asg a0 o :=
      fun o ho => hcells (0, a0) h00 o ho
    have hr0 : (objects.map (asg a0)).sum = 1 := by
      rw [← qsum_eq]
      exact hrow a0 (List.mem_cons_self _ _)
    have key : ((paretoPerms (a0 :: rest) prefs objects).map w).sum
        = (objects.map (fun o =>
            cellSum w (paretoPerms (a0 :: rest) prefs objects) 0 o)).sum := by
      have hcell : ∀ o : Obj,
          cellSum w (paretoPerms (a0 :: rest) prefs objects) 0 o
            = ((paretoPerms (a0 :: rest) prefs objects).map
                (fun p => if p.get? 0 = some o then w p else 0)).sum := by
        intro o
        rw [cellSum, qsum_eq]
      have hmc : (objects.map (fun o =>
          cellSum w (paretoPerms (a0 :: rest) prefs objects) 0 o))
          = (objects.map (fun o =>
              ((paretoPerms (a0 :: rest) prefs objects).map
                (fun p => if p.get? 0 = some o then w p else 0)).sum)) := by
        exact List.map_congr_left (fun o _ => hcell o)
      rw [hmc, ← list_sum_swap]
      apply congrArg
      apply List.map_congr_left
      intro p hp
      have hperm := paretoPerms_mem_perm hp
      have hpne : p ≠ [] := by
        intro hpe
        rw [hpe] at hperm
        exact hobj hperm.nil_eq.symm
      obtain ⟨h0, hh0⟩ : ∃ x, p.get? 0 = some x := by
        cases p with
        | nil => exact absurd rfl hpne
        | cons z zs => exact ⟨z, rfl⟩
      have hmem0 : h0 ∈ objects := by
        have : h0 ∈ p := List.get?_mem hh0
        exact hperm.mem_iff.1 this
      have hrw : (objects.map (fun o => if p.get? 0 = some o then w p else 0))
          = (objects.map (fun o => if h0 = o then w p else 0)) := by
        apply List.map_congr_left
        intro o _
        rw [hh0]
        by_cases he : h0 = o
        · rw [if_pos he, if_pos (he ▸ rfl)]
        · rw [if_neg he, if_neg (fun hs => he (Option.some_inj.1 hs))]
      rw [hrw, sum_ite_single objects hnd h0 hmem0 (w p)]
    have hs2 : (objects.map (fun o =>
        cellSum w (paretoPerms (a0 :: rest) prefs objects) 0 o)).sum
        = (objects.map (asg a0)).sum := by
      apply congrArg
      exact List.map_congr_left (fun o ho => hc0 o ho)
    rw [qsum_eq, key, hs2, hr0]
  · rintro ⟨w, hnn, hsum, hcells⟩
    refine ⟨w, fun p hp => ⟨hnn p hp, ?_⟩, hcells⟩
    have hle : w p ≤ ((paretoPerms agents prefs objects).map w).sum := by
      apply List.single_le_sum
      · intro x hx
        obtain ⟨q, hq, rfl⟩ := List.mem_map.1 hx
        exact hnn q hq
      · exact List.mem_map_of_mem w hp
    rw [← qsum_eq, hsum] at hle
    exact hle

/-- Witness for `check_ex_post_iff_convex` on a concrete doubly stochastic
instance. -/
theorem check_ex_post_iff_convex_witness :
    (([0, 1] : List Agent) ≠ [] ∧ ([10, 11] : List Obj) ≠ [] ∧
      ([10, 11] : List Obj).Nodup ∧
      (∀ a ∈ ([0, 1] : List Agent), qsum ([10, 11].map (asgId a)) = 1)) ∧
    (check_ex_post_efficiency asgId prefsOpp [0, 1] [10, 11] ↔
      codeConvexCombination asgId prefsOpp [0, 1] [10, 11]) :=
  ⟨⟨by decide, by decide, by decide, by decide⟩,
   check_ex_post_iff_convex asgId prefsOpp [0, 1] [10, 11]
     (by decide) (by decide) (by decide) (by decide)⟩

/-- C2 counterexample: on the three-agent instance where the deterministic
assignment `0 ↦ a, 1 ↦ b, 2 ↦ c` admits no improving *pairwise* swap but is
Pareto dominated by the three-cycle `0 ↦ b, 1 ↦ c, 2 ↦ a`, the code's
check accepts (the assignment is a feasible combination of its
pairwise-filtered permutations — it is one of them), while the claim's
property — a convex combination of truly Pareto-optimal deterministic
assignments — fails, since the only truly Pareto-optimal permutation gives
agent `0` object `b`, not `a`. -/
theorem ex_post_check_vs_true_pareto :
    check_ex_post_efficiency asgDet prefsC2 [0, 1, 2] [1, 2, 3] ∧
    ¬ specExPostEfficient asgDet prefsC2 [0, 1, 2] [1, 2, 3] := by
  constructor
  · refine ⟨wDet, ?_, ?_⟩
    · decide
    · unfold lpCells
      decide
  · rintro ⟨w, hnn, hsum, hcells⟩
    have h00 : ((0, 0) : ℕ × Agent) ∈ ([0, 1, 2] : List Agent).enum := by decide
    have hobj : (1 : Obj) ∈ ([1, 2, 3] : List Obj) := by decide
    have hc := hcells (0, 0) h00 1 hobj
    have hzero : cellSum w (specParetoPerms [0, 1, 2] prefsC2 [1, 2, 3]) 0 1 = 0 := by
      apply cellSum_eq_zero
      decide
    rw [hzero] at hc
    norm_num [asgDet] at hc

end CSC
